import Mathlib

/-!
# Verification of the Latin-to-Tengwar transliteration engine

A shallow embedding of `latin_to_tengwar.py`. Words and the output
accumulator are `List Char` (Python strings of Unicode code points).
Dictionaries are association lists with the same key/value data; a
Python dict with a duplicated key keeps the last binding, so the
`doubles` table below carries the single surviving binding for the
key made of two letters s.

Python code can raise exceptions (IndexError on `word[0]` for an empty
string, KeyError on a missing dict key), so every operation that can
raise returns `Except Unit _`, with `.error ()` standing for the raised
exception. The `while` loops of `transliterate` are modelled with
explicit fuel: a run that returns `none` for every fuel is a run in
which the Python loop never terminates, `some (.error ())` is a raised
exception, and `some (.ok st)` is normal completion in state `st`.
-/

/-- A glyph string for the Tengwar Annatar font encoding. -/
abbrev Glyph := List Char

/-- The backquote character used by the independent-vowel glyphs. -/
def bq : Char := Char.ofNat 96

/-- The apostrophe character used by the doubled-consonant glyphs. -/
def apos : Char := Char.ofNat 39

/-- `vowels` list from the source. -/
def vowels : List Char :=
  ['a', 'e', 'i', 'o', 'u', 'á', 'é', 'í', 'ó', 'ú', 'ä', 'ë', 'ï', 'ö', 'ü']

/-- `tengwar_vowels` list from the source. -/
def tengwar_vowels : List Char := ['C', 'F', 'G', 'H', 'J']

/-- `combined_vowels` dict from the source. -/
def combined_vowels : List (Char × Glyph) :=
  [('a', ['C']), ('e', ['F']), ('i', ['G']), ('o', ['H']), ('u', ['J']),
   ('ä', ['C']), ('ë', ['F']), ('ï', ['G']), ('ö', ['H']), ('ü', ['J'])]

/-- `long_vowels` dict from the source. -/
def long_vowels : List (Char × Glyph) :=
  [('á', ['~', 'C']), ('é', ['~', 'F']), ('í', ['~', 'G']),
   ('ó', ['~', 'H']), ('ú', ['~', 'J'])]

/-- `independent_vowels` dict from the source. -/
def independent_vowels : List (Char × Glyph) :=
  [('a', [bq, 'C']), ('e', [bq, 'F']), ('i', [bq, 'G']), ('o', [bq, 'H']),
   ('u', [bq, 'J']),
   ('ä', [bq, 'C']), ('ë', [bq, 'F']), ('ï', [bq, 'G']), ('ö', [bq, 'H']),
   ('ü', [bq, 'J']),
   ('á', ['~', 'C']), ('é', ['~', 'F']), ('í', ['~', 'G']), ('ó', ['~', 'H']),
   ('ú', ['~', 'J'])]

/-- `doubles` dict from the source. The source writes the two-s key twice
(first with a comma value, later with value k); the Python dict keeps the
later binding, recorded here. -/
def doubles : List (List Char × Glyph) :=
  [(['ñ', 'w'], ['b']),
   (['r', 'd'], ['u']),
   (['l', 'd'], ['m']),
   (['s', 's'], ['k']),
   (['q', 'u'], ['z']),
   (['n', 'd'], ['2']),
   (['m', 'b'], ['w']),
   (['n', 'g'], ['s']),
   (['c', 'h'], ['d']),
   (['h', 'w'], ['c']),
   (['n', 't'], ['4']),
   (['m', 'p'], ['r']),
   (['n', 'c'], ['f']),
   (['a', 'i'], ['l', 'C']),
   (['a', 'u'], ['.', 'C']),
   (['o', 'i'], ['l', 'H']),
   (['u', 'i'], ['l', 'J']),
   (['e', 'u'], ['.', 'F']),
   (['i', 'u'], ['.', 'G']),
   (['t', 'y'], ['1', 'Ì']),
   (['s', 'y'], ['i', 'Ì']),
   (['n', 'y'], ['5', 'Ì']),
   (['r', 'y'], ['6', 'Ì']),
   (['l', 'y'], ['j', 'Ì']),
   (['t', 't'], ['1', apos]),
   (['n', 'n'], ['5', apos]),
   (['l', 'l'], ['j', apos]),
   (['m', 'm'], ['t', apos]),
   (['h', 'r'], ['Á', '6']),
   (['h', 'l'], ['Á', 'j'])]

/-- `triples` dict from the source. -/
def triples : List (List Char × Glyph) :=
  [(['n', 'g', 'w'], ['x']),
   (['n', 'q', 'u'], ['v']),
   (['n', 'd', 'y'], ['2', 'Ì']),
   (['n', 't', 'y'], ['4', 'Ì']),
   (['s', 's', 'a'], [',', 'C']),
   (['s', 's', 'e'], [',', 'F']),
   (['s', 's', 'i'], [',', 'G']),
   (['s', 's', 'o'], [',', 'H']),
   (['s', 's', 'u'], [',', 'J']),
   (['s', 's', 'ë'], [',', 'F']),
   (['s', 'a', 'i'], ['8', 'l', 'C']),
   (['s', 'a', 'u'], ['8', '.', 'C']),
   (['s', 'o', 'i'], ['8', 'l', 'H']),
   (['s', 'u', 'i'], ['8', 'l', 'J']),
   (['s', 'e', 'u'], ['8', '.', 'F']),
   (['s', 'i', 'u'], ['8', '.', 'G'])]

/-- `quads` dict from the source. -/
def quads : List (List Char × Glyph) :=
  [(['s', 's', 'a', 'i'], ['k', 'l', 'C']),
   (['s', 's', 'a', 'u'], ['k', '.', 'C']),
   (['s', 's', 'o', 'i'], ['k', 'l', 'H']),
   (['s', 's', 'u', 'i'], ['k', 'l', 'J']),
   (['s', 's', 'e', 'u'], ['k', '.', 'F']),
   (['s', 's', 'i', 'u'], ['k', '.', 'G'])]

/-- `consonants` dict from the source. -/
def consonants : List (Char × Glyph) :=
  [('t', ['1']), ('p', ['q']), ('c', ['a']), ('k', ['a']), ('f', ['e']),
   ('n', ['5']), ('m', ['t']), ('ñ', ['g']), ('r', ['7']), ('v', ['y']),
   ('y', ['h']), ('w', ['n']), ('l', ['j']), ('h', ['d']), ('s', ['8']),
   ('þ', ['3']), ('x', ['a', 'Ç'])]

/-- `initial_consonant` dict from the source. -/
def initial_consonant : List (Char × Glyph) :=
  [('h', ['9']), ('y', ['h', 'Ì']), ('r', ['7'])]

/-- Mutable state of one `LatinWord` object: the still-unconsumed input
`latin_word` and the output accumulator `annatar_word`.  The separate
`word_length` counter of the source always equals `latin_word.length`
(every substitution shortens `latin_word` by exactly the amount it
subtracts from the counter), so the loop guards below test the length. -/
structure St where
  latin_word : List Char
  annatar_word : List Char
  deriving DecidableEq, Repr

/-- The `LatinWord.__init__` constructor: fresh state for one word. -/
def initW (latin_word : List Char) : St := ⟨latin_word, []⟩

/-- Python `s[0]`: IndexError on an empty string. -/
def exHead (l : List Char) : Except Unit Char :=
  match l with
  | [] => .error ()
  | c :: _ => .ok c

/-- Python `s[-1]`: IndexError on an empty string. -/
def exLast (l : List Char) : Except Unit Char :=
  match l.getLast? with
  | some c => .ok c
  | none => .error ()

/-- Python `d[k]`: KeyError when the key is missing. -/
def dget {α : Type} [BEq α] (t : List (α × Glyph)) (k : α) : Except Unit Glyph :=
  match t.lookup k with
  | some v => .ok v
  | none => .error ()

/-- Python `k in d.keys()`. -/
def hasKey {α : Type} [BEq α] (t : List (α × Glyph)) (k : α) : Bool :=
  (t.lookup k).isSome

/-- Exception propagation: a raised exception aborts the statement. -/
def ebind {α β : Type} (x : Except Unit α) (f : α → Except Unit β) : Except Unit β :=
  match x with
  | .error e => .error e
  | .ok a => f a

/-- Sequencing of stages of the program: an exception or a diverging loop
on the left aborts the whole computation. -/
def obind {α β : Type} (x : Option (Except Unit α)) (f : α → Option (Except Unit β)) :
    Option (Except Unit β) :=
  match x with
  | none => none
  | some (.error e) => some (.error e)
  | some (.ok a) => f a

/-- `LatinWord.quad_check`.  The branch for a word of exactly four
characters falls off the method without `return` when the word is not a
key, which Python treats the same as `return False`. -/
def quad_check (s : St) : Bool :=
  if s.latin_word.length = 4 then hasKey quads s.latin_word
  else hasKey quads (s.latin_word.take 4)

/-- `LatinWord.triple_check`. -/
def triple_check (s : St) : Bool :=
  if s.latin_word.length = 3 then hasKey triples s.latin_word
  else hasKey triples (s.latin_word.take 3)

/-- `LatinWord.double_check`.  The carve-out branch compares the prefix
with the two plain letters n, w — not with the table key that starts with
the letter n-with-tilde. -/
def double_check (s : St) : Bool :=
  if s.latin_word.length = 2 then hasKey doubles s.latin_word
  else if hasKey doubles (s.latin_word.take 2) then
    if s.latin_word.take 2 = ['n', 'w'] then s.annatar_word.isEmpty else true
  else false

/-- `LatinWord.initial_vowel_check`: evaluates `latin_word[0]` before the
conjunction, so it raises on an empty word. -/
def initial_vowel_check (s : St) : Except Unit Bool :=
  ebind (exHead s.latin_word) fun c =>
    .ok (vowels.contains c && s.annatar_word.isEmpty)

/-- `LatinWord.initial_h_check`. -/
def initial_h_check (s : St) : Except Unit Bool :=
  ebind (exHead s.latin_word) fun c =>
    .ok (hasKey initial_consonant c && s.annatar_word.isEmpty)

/-- `LatinWord.long_vowel_check`. -/
def long_vowel_check (s : St) : Except Unit Bool :=
  ebind (exHead s.latin_word) fun c => .ok (hasKey long_vowels c)

/-- `LatinWord.preceding_vowel_check`: the guard on the accumulator
short-circuits, so an empty accumulator means no indexing happens and the
method returns a falsy value.  The membership test compares the last
accumulator character with the values of `combined_vowels`. -/
def preceding_vowel_check (s : St) : Except Unit Bool :=
  if s.annatar_word.isEmpty then .ok false
  else ebind (exHead s.latin_word) fun c =>
    if vowels.contains c then
      ebind (exLast s.annatar_word) fun g =>
        .ok ((combined_vowels.map Prod.snd).contains [g])
    else .ok false

/-- `LatinWord.combined_vowel_check`. -/
def combined_vowel_check (s : St) : Except Unit Bool :=
  if s.annatar_word.isEmpty then .ok false
  else ebind (exHead s.latin_word) fun c => .ok (vowels.contains c)

/-- `LatinWord.consonant_check`. -/
def consonant_check (s : St) : Except Unit Bool :=
  ebind (exHead s.latin_word) fun c => .ok (hasKey consonants c)

/-- `LatinWord.quad_substitute`.  For a word of exactly four characters the
source appends the raw `latin_word` itself, not the table value. -/
def quad_substitute (s : St) : Except Unit St :=
  if s.latin_word.length = 4 then .ok ⟨[], s.annatar_word ++ s.latin_word⟩
  else ebind (dget quads (s.latin_word.take 4)) fun g =>
    .ok ⟨s.latin_word.drop 4, s.annatar_word ++ g⟩

/-- `LatinWord.triple_substitute`. -/
def triple_substitute (s : St) : Except Unit St :=
  if s.latin_word.length = 3 then
    ebind (dget triples s.latin_word) fun g => .ok ⟨[], s.annatar_word ++ g⟩
  else ebind (dget triples (s.latin_word.take 3)) fun g =>
    .ok ⟨s.latin_word.drop 3, s.annatar_word ++ g⟩

/-- `LatinWord.double_substitute`.  For a word of exactly two characters the
source appends the raw `latin_word` itself, not the table value. -/
def double_substitute (s : St) : Except Unit St :=
  if s.latin_word.length = 2 then .ok ⟨[], s.annatar_word ++ s.latin_word⟩
  else ebind (dget doubles (s.latin_word.take 2)) fun g =>
    .ok ⟨s.latin_word.drop 2, s.annatar_word ++ g⟩

/-- `LatinWord.independent_vowel_substitute`. -/
def independent_vowel_substitute (s : St) : Except Unit St :=
  ebind (exHead s.latin_word) fun c =>
    ebind (dget independent_vowels c) fun g =>
      .ok ⟨if s.latin_word.length = 1 then [] else s.latin_word.drop 1,
           s.annatar_word ++ g⟩

/-- `LatinWord.initial_h_substitute`. -/
def initial_h_substitute (s : St) : Except Unit St :=
  ebind (exHead s.latin_word) fun c =>
    ebind (dget initial_consonant c) fun g =>
      .ok ⟨if s.latin_word.length = 1 then [] else s.latin_word.drop 1,
           s.annatar_word ++ g⟩

/-- `LatinWord.combined_vowel_substitute`. -/
def combined_vowel_substitute (s : St) : Except Unit St :=
  ebind (exHead s.latin_word) fun c =>
    ebind (dget combined_vowels c) fun g =>
      .ok ⟨if s.latin_word.length = 1 then [] else s.latin_word.drop 1,
           s.annatar_word ++ g⟩

/-- `LatinWord.long_vowel_substitute`. -/
def long_vowel_substitute (s : St) : Except Unit St :=
  ebind (exHead s.latin_word) fun c =>
    ebind (dget long_vowels c) fun g =>
      .ok ⟨if s.latin_word.length = 1 then [] else s.latin_word.drop 1,
           s.annatar_word ++ g⟩

/-- `LatinWord.consonant_substitute`: the special branch for the letter r
indexes `annatar_word[-1]` (which raises on an empty accumulator) and
`latin_word[1]`. -/
def consonant_substitute (s : St) : Except Unit St :=
  ebind (exHead s.latin_word) fun c =>
    if c = 'r' then
      if 1 < s.latin_word.length then
        ebind (exLast s.annatar_word) fun g =>
          ebind (exHead (s.latin_word.drop 1)) fun v =>
            if tengwar_vowels.contains g && vowels.contains v then
              .ok ⟨s.latin_word.drop 1, s.annatar_word ++ ['7']⟩
            else
              .ok ⟨s.latin_word.drop 1, s.annatar_word ++ ['6']⟩
      else .ok ⟨[], s.annatar_word ++ ['6']⟩
    else ebind (dget consonants c) fun g =>
      .ok ⟨if s.latin_word.length = 1 then [] else s.latin_word.drop 1,
           s.annatar_word ++ g⟩

/-- Dispatch on one check of the if/elif cascade: a raised exception
propagates, a truthy check runs its substitution, otherwise fall through. -/
def orCheck (c : Except Unit Bool) (sub rest : Except Unit St) : Except Unit St :=
  match c with
  | .error e => .error e
  | .ok true => sub
  | .ok false => rest

/-- The single-character elif cascade shared by all four loops of
`transliterate`: initial vowel, initial consonant, long vowel, vowel after
a combined vowel, combined vowel, consonant.  When no check fires the
iteration does nothing and the state is unchanged. -/
def singlesChain (s : St) : Except Unit St :=
  orCheck (initial_vowel_check s) (independent_vowel_substitute s)
    (orCheck (initial_h_check s) (initial_h_substitute s)
      (orCheck (long_vowel_check s) (long_vowel_substitute s)
        (orCheck (preceding_vowel_check s) (independent_vowel_substitute s)
          (orCheck (combined_vowel_check s) (combined_vowel_substitute s)
            (orCheck (consonant_check s) (consonant_substitute s) (.ok s))))))

/-- Body of the third loop of `transliterate` (guard: more than 1
character remains): double check, then the single-character cascade. -/
def chainB (s : St) : Except Unit St :=
  if double_check s then double_substitute s else singlesChain s

/-- Body of the second loop of `transliterate` (guard: more than 2
characters remain): triple, double, then singles. -/
def chainA (s : St) : Except Unit St :=
  if triple_check s then triple_substitute s else chainB s

/-- Body of the first loop of `transliterate` (guard: more than 3
characters remain).  The quad check is a separate `if`, not part of the
elif cascade: when it fires, the cascade still runs afterwards on the
shortened word within the same iteration. -/
def body1 (s : St) : Except Unit St :=
  if quad_check s then ebind (quad_substitute s) chainA
  else chainA s

/-- One iteration result feeding the rest of a loop: a raised exception
stops the loop with that exception. -/
def stepRes (r : Except Unit St) (g : St → Option (Except Unit St)) :
    Option (Except Unit St) :=
  match r with
  | .error e => some (.error e)
  | .ok s1 => g s1

/-- A fueled `while word_length > k` loop running `body` each iteration.
`none` means the fuel ran out (the Python loop did not finish within that
many iterations), `some (.error ())` a raised exception, `some (.ok s)`
normal exit with the guard false. -/
def while_gt (body : St → Except Unit St) (k : Nat) : Nat → St → Option (Except Unit St)
  | 0, _ => none
  | f + 1, s =>
    if k < s.latin_word.length then stepRes (body s) (while_gt body k f)
    else some (.ok s)

/-- Sequencing of loops: exceptions and exhausted fuel propagate. -/
def andThen (r : Option (Except Unit St)) (g : St → Option (Except Unit St)) :
    Option (Except Unit St) :=
  match r with
  | some (.ok s) => g s
  | r => r

/-- `LatinWord.transliterate`: the four successive threshold-gated loops. -/
def transliterate (f : Nat) (s : St) : Option (Except Unit St) :=
  andThen (andThen (andThen (while_gt body1 3 f s)
    (while_gt chainA 2 f)) (while_gt chainB 1 f)) (while_gt singlesChain 0 f)

/-- The first iteration `transliterate` performs on a state, as gated by
the loop thresholds: used to state which rule wins the first dispatch. -/
def firstStep (s : St) : Except Unit St :=
  if 3 < s.latin_word.length then body1 s
  else if 2 < s.latin_word.length then chainA s
  else if 1 < s.latin_word.length then chainB s
  else if 0 < s.latin_word.length then singlesChain s
  else .ok s

/-- Modelled from the spec: one step of the single greedy loop that tries
the longest available match length first, four down to one, bounded by the
length of the remaining input, with the same per-class checks and
substitutions as the tiered code. -/
def sstep (s : St) : Except Unit St :=
  if 3 < s.latin_word.length ∧ quad_check s then quad_substitute s
  else chainA s

/-- Modelled from the spec: the single greedy longest-match-first loop
that the spec claims is equivalent to the four tiered loops. -/
def singleRun (f : Nat) (s : St) : Option (Except Unit St) :=
  while_gt sstep 0 f s

/-- A word character for the tokenizer regex `\W+`, modelled on the
repertoire this program works with: ASCII word characters plus the
accented vowels and letters the tables use. -/
def wordChar (c : Char) : Bool :=
  ('a' ≤ c && c ≤ 'z') || ('A' ≤ c && c ≤ 'Z') || ('0' ≤ c && c ≤ '9') ||
  c = '_' ||
  ['á', 'é', 'í', 'ó', 'ú', 'ä', 'ë', 'ï', 'ö', 'ü', 'ñ', 'þ',
   'Á', 'É', 'Í', 'Ó', 'Ú', 'Ä', 'Ë', 'Ï', 'Ö', 'Ü', 'Ñ', 'Þ'].contains c

/-- The uppercase accented letters of the repertoire and their lowercase
forms, for `str.lower`. -/
def upperMap : List (Char × Char) :=
  [('Á', 'á'), ('É', 'é'), ('Í', 'í'), ('Ó', 'ó'), ('Ú', 'ú'),
   ('Ä', 'ä'), ('Ë', 'ë'), ('Ï', 'ï'), ('Ö', 'ö'), ('Ü', 'ü'),
   ('Ñ', 'ñ'), ('Þ', 'þ')]

/-- Python `str.lower`, on the same repertoire. -/
def pyLower (c : Char) : Char :=
  if 'A' ≤ c && c ≤ 'Z' then Char.ofNat (c.toNat + 32)
  else match upperMap.lookup c with
    | some l => l
    | none => c

/-- Worker for `re.split` on one-or-more non-word characters.  The flag
records whether we are inside a separator run (the piece before the run
has already been emitted). -/
def sgo : List Char → List Char → Bool → List (List Char)
  | [], cur, false => [cur.reverse]
  | [], _, true => [[]]
  | c :: rest, cur, false =>
    if wordChar c then sgo rest (c :: cur) false
    else cur.reverse :: sgo rest [] true
  | c :: rest, cur, true =>
    if wordChar c then sgo rest [c] false
    else sgo rest cur true

/-- `re.split` on one-or-more non-word characters, as used by
`LatinText.__init__`: maximal separator runs split the string, and a run
touching either end contributes an empty piece there. -/
def splitW (l : List Char) : List (List Char) := sgo l [] false

/-- The word loop of `transcribe_sentence`: transliterate each word with a
fresh `LatinWord` state and collect the outputs. -/
def transWords (f : Nat) : List (List Char) → Option (Except Unit (List (List Char)))
  | [] => some (.ok [])
  | w :: ws =>
    obind (transliterate f (initW w)) fun st =>
      obind (transWords f ws) fun outs =>
        some (.ok (st.annatar_word :: outs))

/-- `transcribe_sentence`: lowercase, split on non-word runs,
transliterate each word, join with single spaces. -/
def transcribe_sentence (f : Nat) (sentence : List Char) :
    Option (Except Unit (List Char)) :=
  obind (transWords f (splitW (sentence.map pyLower))) fun outs =>
    some (.ok (List.intercalate [' '] outs))

/-- A character the engine has a single-character rule for: a vowel or a
key of the consonant table. -/
def coveredChar (c : Char) : Bool :=
  vowels.contains c || hasKey consonants c

/-- No suffix of the word starts with a tetragraph key, so the quad check
never succeeds anywhere in a run on this word. -/
def quadFree (w : List Char) : Prop :=
  ∀ t ∈ w.tails, hasKey quads (t.take 4) = false

/-- One engine step either leaves the state unchanged (no rule fired) or
strictly shortens the remaining input, which stays a suffix of it. -/
def StepOk (s s' : St) : Prop :=
  s' = s ∨ (s'.latin_word.length < s.latin_word.length ∧ s'.latin_word <:+ s.latin_word)

/-- Every successful result of a loop body is a `StepOk` step. -/
def BodyStep (body : St → Except Unit St) : Prop :=
  ∀ s s', body s = .ok s' → StepOk s s'

/-! ## Table facts -/

theorem lookup_mem {α β : Type} [BEq α] [LawfulBEq α] (k : α) :
    ∀ t : List (α × β), (List.lookup k t).isSome = true → k ∈ t.map Prod.fst := by
  intro t
  induction t with
  | nil => intro h; simp [List.lookup] at h
  | cons p t ih =>
    obtain ⟨a, b⟩ := p
    intro h
    by_cases hab : k == a
    · have : k = a := eq_of_beq hab
      simp [this]
    · have hab' : (k == a) = false := by simpa using hab
      rw [List.lookup, hab'] at h
      simp only [List.map_cons, List.mem_cons]
      exact Or.inr (ih h)

theorem dget_ok {α : Type} [BEq α] {t : List (α × Glyph)} {k : α} {g : Glyph}
    (h : dget t k = .ok g) : t.lookup k = some g := by
  unfold dget at h
  cases hl : t.lookup k with
  | none => rw [hl] at h; exact Except.noConfusion h
  | some v => rw [hl] at h; cases h; rfl

theorem dget_hasKey {α : Type} [BEq α] {t : List (α × Glyph)} {k : α} {g : Glyph}
    (h : dget t k = .ok g) : hasKey t k = true := by
  unfold hasKey; rw [dget_ok h]; rfl

theorem doubles_key_length {k : List Char} (h : hasKey doubles k = true) :
    k.length = 2 := by
  have hm := lookup_mem k doubles h
  have hall : ∀ x ∈ doubles.map Prod.fst, (x : List Char).length = 2 := by decide
  exact hall k hm

theorem triples_key_length {k : List Char} (h : hasKey triples k = true) :
    k.length = 3 := by
  have hm := lookup_mem k triples h
  have hall : ∀ x ∈ triples.map Prod.fst, (x : List Char).length = 3 := by decide
  exact hall k hm

theorem quads_key_length {k : List Char} (h : hasKey quads k = true) :
    k.length = 4 := by
  have hm := lookup_mem k quads h
  have hall : ∀ x ∈ quads.map Prod.fst, (x : List Char).length = 4 := by decide
  exact hall k hm

theorem triple_check_short {s : St} (h : s.latin_word.length ≤ 2) :
    triple_check s = false := by
  have h3 : s.latin_word.length ≠ 3 := by omega
  cases hk : hasKey triples (s.latin_word.take 3) with
  | false => simp [triple_check, h3, hk]
  | true =>
    have := triples_key_length hk
    rw [List.length_take] at this
    omega

theorem double_check_short {s : St} (h : s.latin_word.length ≤ 1) :
    double_check s = false := by
  have h2 : s.latin_word.length ≠ 2 := by omega
  cases hk : hasKey doubles (s.latin_word.take 2) with
  | false => simp [double_check, h2, hk]
  | true =>
    have := doubles_key_length hk
    rw [List.length_take] at this
    omega

theorem quad_check_of_quadFree {s : St} (h : quadFree s.latin_word) :
    quad_check s = false := by
  have h4 := h s.latin_word ((List.mem_tails _ _).mpr (List.suffix_refl _))
  unfold quad_check
  by_cases hl : s.latin_word.length = 4
  · rw [if_pos hl, ← List.take_of_length_le (le_of_eq hl)]
    exact h4
  · rw [if_neg hl]
    exact h4

theorem quadFree_suffix {l t : List Char} (h : quadFree l) (hs : t <:+ l) :
    quadFree t := by
  intro u hu
  exact h u ((List.mem_tails _ _).mpr (((List.mem_tails _ _).mp hu).trans hs))

/-! ## Reduction lemmas for the bind helpers -/

theorem ebind_err {α β : Type} (e : Unit) (f : α → Except Unit β) :
    ebind (.error e) f = .error e := rfl

theorem ebind_okk {α β : Type} (a : α) (f : α → Except Unit β) :
    ebind (.ok a) f = f a := rfl

theorem obind_none {α β : Type} (f : α → Option (Except Unit β)) :
    obind none f = none := rfl

theorem obind_err {α β : Type} (e : Unit) (f : α → Option (Except Unit β)) :
    obind (some (.error e)) f = some (.error e) := rfl

theorem obind_okk {α β : Type} (a : α) (f : α → Option (Except Unit β)) :
    obind (some (.ok a)) f = f a := rfl

theorem stepRes_err (e : Unit) (g : St → Option (Except Unit St)) :
    stepRes (.error e) g = some (.error e) := rfl

theorem stepRes_ok (s : St) (g : St → Option (Except Unit St)) :
    stepRes (.ok s) g = g s := rfl

/-! ## Every substitution strictly shortens the remaining input -/

theorem exHead_cons (c : Char) (t : List Char) : exHead (c :: t) = .ok c := rfl

theorem exHead_nil : exHead [] = .error () := rfl

theorem nil_step {l : List Char} (h : 0 < l.length) :
    ([] : List Char).length < l.length ∧ ([] : List Char) <:+ l :=
  ⟨h, List.nil_suffix⟩

theorem drop_one_step (c : Char) (t : List Char) :
    (List.drop 1 (c :: t)).length < (c :: t).length ∧ List.drop 1 (c :: t) <:+ c :: t := by
  constructor
  · simp only [List.drop_succ_cons, List.drop_zero, List.length_cons]
    omega
  · exact List.drop_suffix _ _

theorem tail_step (c : Char) (t : List Char) :
    (if (c :: t).length = 1 then ([] : List Char) else List.drop 1 (c :: t)).length <
      (c :: t).length ∧
    (if (c :: t).length = 1 then ([] : List Char) else List.drop 1 (c :: t)) <:+ c :: t := by
  by_cases h1 : (c :: t).length = 1
  · rw [if_pos h1]
    exact nil_step (by simp)
  · rw [if_neg h1]
    exact drop_one_step c t

theorem independent_vowel_substitute_ok {s s' : St}
    (h : independent_vowel_substitute s = .ok s') :
    s'.latin_word.length < s.latin_word.length ∧ s'.latin_word <:+ s.latin_word := by
  obtain ⟨latin, ann⟩ := s
  cases latin with
  | nil => exact Except.noConfusion h
  | cons c t =>
    simp only [independent_vowel_substitute, exHead_cons, ebind_okk] at h
    cases hd : dget independent_vowels c with
    | error e => rw [hd] at h; exact Except.noConfusion h
    | ok g =>
      rw [hd] at h
      simp only [ebind_okk] at h
      injection h with h2
      subst h2
      exact tail_step c t

theorem initial_h_substitute_ok {s s' : St}
    (h : initial_h_substitute s = .ok s') :
    s'.latin_word.length < s.latin_word.length ∧ s'.latin_word <:+ s.latin_word := by
  obtain ⟨latin, ann⟩ := s
  cases latin with
  | nil => exact Except.noConfusion h
  | cons c t =>
    simp only [initial_h_substitute, exHead_cons, ebind_okk] at h
    cases hd : dget initial_consonant c with
    | error e => rw [hd] at h; exact Except.noConfusion h
    | ok g =>
      rw [hd] at h
      simp only [ebind_okk] at h
      injection h with h2
      subst h2
      exact tail_step c t

theorem combined_vowel_substitute_ok {s s' : St}
    (h : combined_vowel_substitute s = .ok s') :
    s'.latin_word.length < s.latin_word.length ∧ s'.latin_word <:+ s.latin_word := by
  obtain ⟨latin, ann⟩ := s
  cases latin with
  | nil => exact Except.noConfusion h
  | cons c t =>
    simp only [combined_vowel_substitute, exHead_cons, ebind_okk] at h
    cases hd : dget combined_vowels c with
    | error e => rw [hd] at h; exact Except.noConfusion h
    | ok g =>
      rw [hd] at h
      simp only [ebind_okk] at h
      injection h with h2
      subst h2
      exact tail_step c t

theorem long_vowel_substitute_ok {s s' : St}
    (h : long_vowel_substitute s = .ok s') :
    s'.latin_word.length < s.latin_word.length ∧ s'.latin_word <:+ s.latin_word := by
  obtain ⟨latin, ann⟩ := s
  cases latin with
  | nil => exact Except.noConfusion h
  | cons c t =>
    simp only [long_vowel_substitute, exHead_cons, ebind_okk] at h
    cases hd : dget long_vowels c with
    | error e => rw [hd] at h; exact Except.noConfusion h
    | ok g =>
      rw [hd] at h
      simp only [ebind_okk] at h
      injection h with h2
      subst h2
      exact tail_step c t

theorem consonant_substitute_ok {s s' : St}
    (h : consonant_substitute s = .ok s') :
    s'.latin_word.length < s.latin_word.length ∧ s'.latin_word <:+ s.latin_word := by
  obtain ⟨latin, ann⟩ := s
  cases latin with
  | nil => exact Except.noConfusion h
  | cons c t =>
    simp only [consonant_substitute, exHead_cons, ebind_okk] at h
    by_cases hr : c = 'r'
    · rw [if_pos hr] at h
      by_cases hlen : 1 < (c :: t).length
      · rw [if_pos hlen] at h
        cases hg : exLast ann with
        | error e => rw [hg] at h; exact Except.noConfusion h
        | ok g =>
          rw [hg] at h
          simp only [ebind_okk] at h
          cases hv : exHead ((c :: t).drop 1) with
          | error e => rw [hv] at h; exact Except.noConfusion h
          | ok v =>
            rw [hv] at h
            simp only [ebind_okk] at h
            have hconc : s' = (⟨List.drop 1 (c :: t), ann ++ ['7']⟩ : St) ∨
                s' = ⟨List.drop 1 (c :: t), ann ++ ['6']⟩ := by
              by_cases hc : tengwar_vowels.contains g && vowels.contains v
              · rw [if_pos hc] at h; injection h with h2; exact Or.inl h2.symm
              · rw [if_neg hc] at h; injection h with h2; exact Or.inr h2.symm
            rcases hconc with rfl | rfl <;> exact drop_one_step c t
      · rw [if_neg hlen] at h
        injection h with h2
        subst h2
        exact nil_step (by simp)
    · rw [if_neg hr] at h
      cases hd : dget consonants c with
      | error e => rw [hd] at h; exact Except.noConfusion h
      | ok g =>
        rw [hd] at h
        simp only [ebind_okk] at h
        injection h with h2
        subst h2
        exact tail_step c t

theorem quad_substitute_ok {s s' : St}
    (h : quad_substitute s = .ok s') :
    s'.latin_word.length < s.latin_word.length ∧ s'.latin_word <:+ s.latin_word := by
  unfold quad_substitute at h
  by_cases h4 : s.latin_word.length = 4
  · rw [if_pos h4] at h
    injection h with h2
    subst h2
    exact nil_step (by omega)
  · rw [if_neg h4] at h
    cases hd : dget quads (s.latin_word.take 4) with
    | error e => rw [hd] at h; exact Except.noConfusion h
    | ok g =>
      rw [hd] at h
      simp only [ebind_okk] at h
      injection h with h2
      subst h2
      have hk := quads_key_length (dget_hasKey hd)
      rw [List.length_take] at hk
      refine ⟨?_, List.drop_suffix _ _⟩
      simp only [List.length_drop]
      omega

theorem triple_substitute_ok {s s' : St}
    (h : triple_substitute s = .ok s') :
    s'.latin_word.length < s.latin_word.length ∧ s'.latin_word <:+ s.latin_word := by
  unfold triple_substitute at h
  by_cases h3 : s.latin_word.length = 3
  · rw [if_pos h3] at h
    cases hd : dget triples s.latin_word with
    | error e => rw [hd] at h; exact Except.noConfusion h
    | ok g =>
      rw [hd] at h
      simp only [ebind_okk] at h
      injection h with h2
      subst h2
      exact nil_step (by omega)
  · rw [if_neg h3] at h
    cases hd : dget triples (s.latin_word.take 3) with
    | error e => rw [hd] at h; exact Except.noConfusion h
    | ok g =>
      rw [hd] at h
      simp only [ebind_okk] at h
      injection h with h2
      subst h2
      have hk := triples_key_length (dget_hasKey hd)
      rw [List.length_take] at hk
      refine ⟨?_, List.drop_suffix _ _⟩
      simp only [List.length_drop]
      omega

theorem double_substitute_ok {s s' : St}
    (h : double_substitute s = .ok s') :
    s'.latin_word.length < s.latin_word.length ∧ s'.latin_word <:+ s.latin_word := by
  unfold double_substitute at h
  by_cases hl2 : s.latin_word.length = 2
  · rw [if_pos hl2] at h
    injection h with h2
    subst h2
    exact nil_step (by omega)
  · rw [if_neg hl2] at h
    cases hd : dget doubles (s.latin_word.take 2) with
    | error e => rw [hd] at h; exact Except.noConfusion h
    | ok g =>
      rw [hd] at h
      simp only [ebind_okk] at h
      injection h with h2
      subst h2
      have hk := doubles_key_length (dget_hasKey hd)
      rw [List.length_take] at hk
      refine ⟨?_, List.drop_suffix _ _⟩
      simp only [List.length_drop]
      omega

/-! ## The dispatch chains are `StepOk` -/

theorem orCheck_ok {c : Except Unit Bool} {a r : Except Unit St} {s' : St}
    (h : orCheck c a r = .ok s') :
    (c = .ok true ∧ a = .ok s') ∨ (c = .ok false ∧ r = .ok s') := by
  unfold orCheck at h
  cases c with
  | error e => exact Except.noConfusion h
  | ok b =>
    cases b with
    | true => exact Or.inl ⟨rfl, h⟩
    | false => exact Or.inr ⟨rfl, h⟩

theorem singlesChain_ok {s s' : St} (h : singlesChain s = .ok s') : StepOk s s' := by
  unfold singlesChain at h
  rcases orCheck_ok h with ⟨_, hs⟩ | ⟨_, h⟩
  · exact Or.inr (independent_vowel_substitute_ok hs)
  rcases orCheck_ok h with ⟨_, hs⟩ | ⟨_, h⟩
  · exact Or.inr (initial_h_substitute_ok hs)
  rcases orCheck_ok h with ⟨_, hs⟩ | ⟨_, h⟩
  · exact Or.inr (long_vowel_substitute_ok hs)
  rcases orCheck_ok h with ⟨_, hs⟩ | ⟨_, h⟩
  · exact Or.inr (independent_vowel_substitute_ok hs)
  rcases orCheck_ok h with ⟨_, hs⟩ | ⟨_, h⟩
  · exact Or.inr (combined_vowel_substitute_ok hs)
  rcases orCheck_ok h with ⟨_, hs⟩ | ⟨_, h⟩
  · exact Or.inr (consonant_substitute_ok hs)
  injection h with h2
  exact Or.inl h2.symm

theorem chainB_ok {s s' : St} (h : chainB s = .ok s') : StepOk s s' := by
  unfold chainB at h
  by_cases hd : double_check s
  · rw [if_pos hd] at h
    exact Or.inr (double_substitute_ok h)
  · rw [if_neg hd] at h
    exact singlesChain_ok h

theorem chainA_ok {s s' : St} (h : chainA s = .ok s') : StepOk s s' := by
  unfold chainA at h
  by_cases ht : triple_check s
  · rw [if_pos ht] at h
    exact Or.inr (triple_substitute_ok h)
  · rw [if_neg ht] at h
    exact chainB_ok h

theorem body1_ok {s s' : St} (h : body1 s = .ok s') : StepOk s s' := by
  unfold body1 at h
  by_cases hq : quad_check s
  · rw [if_pos hq] at h
    cases hqs : quad_substitute s with
    | error e => rw [hqs] at h; exact Except.noConfusion h
    | ok s1 =>
      rw [hqs] at h
      simp only [ebind_okk] at h
      have h1 := quad_substitute_ok hqs
      rcases chainA_ok h with rfl | h2
      · exact Or.inr h1
      · exact Or.inr ⟨lt_trans h2.1 h1.1, h2.2.trans h1.2⟩
  · rw [if_neg hq] at h
    exact chainA_ok h

theorem sstep_ok {s s' : St} (h : sstep s = .ok s') : StepOk s s' := by
  unfold sstep at h
  by_cases hq : 3 < s.latin_word.length ∧ quad_check s
  · rw [if_pos hq] at h
    exact Or.inr (quad_substitute_ok h)
  · rw [if_neg hq] at h
    exact chainA_ok h

theorem singlesChain_bodyStep : BodyStep singlesChain := fun _ _ h => singlesChain_ok h

theorem chainB_bodyStep : BodyStep chainB := fun _ _ h => chainB_ok h

theorem chainA_bodyStep : BodyStep chainA := fun _ _ h => chainA_ok h

theorem body1_bodyStep : BodyStep body1 := fun _ _ h => body1_ok h

theorem sstep_bodyStep : BodyStep sstep := fun _ _ h => sstep_ok h

/-! ## Generic facts about the fueled loops -/

theorem while_gt_zero (body : St → Except Unit St) (k : Nat) (s : St) :
    while_gt body k 0 s = none := rfl

theorem while_gt_succ (body : St → Except Unit St) (k f : Nat) (s : St) :
    while_gt body k (f + 1) s =
      if k < s.latin_word.length then stepRes (body s) (while_gt body k f)
      else some (.ok s) := rfl

theorem while_gt_stuck {body : St → Except Unit St} {k : Nat} {s : St}
    (hb : body s = .ok s) (hk : k < s.latin_word.length) :
    ∀ f, while_gt body k f s = none := by
  intro f
  induction f with
  | zero => rfl
  | succ f ih => rw [while_gt_succ, if_pos hk, hb, stepRes_ok, ih]

theorem while_gt_ok_suffix {body : St → Except Unit St} {k : Nat}
    (hb : BodyStep body) :
    ∀ f s s', while_gt body k f s = some (.ok s') → s'.latin_word <:+ s.latin_word := by
  intro f
  induction f with
  | zero => intro s s' h; exact Option.noConfusion h
  | succ f ih =>
    intro s s' h
    rw [while_gt_succ] at h
    by_cases hk : k < s.latin_word.length
    · rw [if_pos hk] at h
      cases hb' : body s with
      | error e => rw [hb', stepRes_err] at h; simp at h
      | ok s1 =>
        rw [hb', stepRes_ok] at h
        have hsuf := ih s1 s' h
        rcases hb s s1 hb' with rfl | ⟨_, hs⟩
        · exact hsuf
        · exact hsuf.trans hs
    · rw [if_neg hk] at h
      obtain rfl : s = s' := by simpa using h
      exact List.suffix_refl _

theorem while_gt_ok_exit {body : St → Except Unit St} {k : Nat} :
    ∀ f s s', while_gt body k f s = some (.ok s') → s'.latin_word.length ≤ k := by
  intro f
  induction f with
  | zero => intro s s' h; exact Option.noConfusion h
  | succ f ih =>
    intro s s' h
    rw [while_gt_succ] at h
    by_cases hk : k < s.latin_word.length
    · rw [if_pos hk] at h
      cases hb' : body s with
      | error e => rw [hb', stepRes_err] at h; simp at h
      | ok s1 =>
        rw [hb', stepRes_ok] at h
        exact ih s1 s' h
    · rw [if_neg hk] at h
      obtain rfl : s = s' := by simpa using h
      omega

theorem while_gt_fuel {body : St → Except Unit St} {k : Nat} (hb : BodyStep body) :
    ∀ (n : Nat) (s : St) (f g : Nat), s.latin_word.length ≤ n →
      s.latin_word.length < f → s.latin_word.length < g →
      while_gt body k f s = while_gt body k g s := by
  intro n
  induction n with
  | zero =>
    intro s f g hn hf hg
    obtain ⟨f', rfl⟩ : ∃ f', f = f' + 1 := ⟨f - 1, by omega⟩
    obtain ⟨g', rfl⟩ : ∃ g', g = g' + 1 := ⟨g - 1, by omega⟩
    have hk : ¬ k < s.latin_word.length := by omega
    rw [while_gt_succ, while_gt_succ, if_neg hk, if_neg hk]
  | succ n ih =>
    intro s f g hn hf hg
    obtain ⟨f', rfl⟩ : ∃ f', f = f' + 1 := ⟨f - 1, by omega⟩
    obtain ⟨g', rfl⟩ : ∃ g', g = g' + 1 := ⟨g - 1, by omega⟩
    by_cases hk : k < s.latin_word.length
    · rw [while_gt_succ, while_gt_succ, if_pos hk, if_pos hk]
      cases hb' : body s with
      | error e => rw [stepRes_err, stepRes_err]
      | ok s1 =>
        rw [stepRes_ok, stepRes_ok]
        rcases hb s s1 hb' with rfl | ⟨hlt, _⟩
        · rw [while_gt_stuck hb' hk f', while_gt_stuck hb' hk g']
        · exact ih s1 f' g' (by omega) (by omega) (by omega)
    · rw [while_gt_succ, while_gt_succ, if_neg hk, if_neg hk]

theorem andThen_eq_obind (r : Option (Except Unit St)) (g : St → Option (Except Unit St)) :
    andThen r g = obind r g := by
  unfold andThen obind
  cases r with
  | none => rfl
  | some x => cases x <;> rfl

theorem andThen_ok {r : Option (Except Unit St)} {g : St → Option (Except Unit St)}
    {s' : St} (h : andThen r g = some (.ok s')) :
    ∃ s0, r = some (.ok s0) ∧ g s0 = some (.ok s') := by
  unfold andThen at h
  cases r with
  | none => exact Option.noConfusion h
  | some x =>
    cases x with
    | error e => simp at h
    | ok s0 => exact ⟨s0, rfl, h⟩

theorem andThen_congr {r : Option (Except Unit St)}
    {g1 g2 : St → Option (Except Unit St)} (P : St → Prop)
    (hr : ∀ s, r = some (.ok s) → P s)
    (hg : ∀ s, P s → g1 s = g2 s) :
    andThen r g1 = andThen r g2 := by
  unfold andThen
  cases r with
  | none => rfl
  | some x =>
    cases x with
    | error e => rfl
    | ok s0 => exact hg s0 (hr s0 rfl)

theorem while_gt_merge {body : St → Except Unit St} {j k : Nat} (hb : BodyStep body)
    (hjk : j ≤ k) :
    ∀ (n : Nat) (s : St) (f : Nat), s.latin_word.length ≤ n →
      s.latin_word.length < f →
      andThen (while_gt body k f s) (while_gt body j f) = while_gt body j f s := by
  intro n
  induction n with
  | zero =>
    intro s f hn hf
    obtain ⟨f', rfl⟩ : ∃ f', f = f' + 1 := ⟨f - 1, by omega⟩
    have hk : ¬ k < s.latin_word.length := by omega
    rw [while_gt_succ, if_neg hk]
    unfold andThen
    rfl
  | succ n ih =>
    intro s f hn hf
    obtain ⟨f', rfl⟩ : ∃ f', f = f' + 1 := ⟨f - 1, by omega⟩
    by_cases hk : k < s.latin_word.length
    · have hj : j < s.latin_word.length := by omega
      rw [while_gt_succ, if_pos hk]
      cases hb' : body s with
      | error e =>
        rw [stepRes_err]
        rw [while_gt_succ, if_pos hj, hb', stepRes_err]
        rfl
      | ok s1 =>
        rw [stepRes_ok]
        rcases hb s s1 hb' with rfl | ⟨hlt, _⟩
        · rw [while_gt_stuck hb' hk f']
          rw [while_gt_stuck hb' hj (f' + 1)]
          rfl
        · rw [while_gt_succ, if_pos hj, hb', stepRes_ok]
          rw [← ih s1 f' (by omega) (by omega)]
          cases hr : while_gt body k f' s1 with
          | none => rfl
          | some x =>
            cases x with
            | error e => rfl
            | ok s2 =>
              unfold andThen
              have hsuf := while_gt_ok_suffix hb f' s1 s2 hr
              have hlen2 : s2.latin_word.length ≤ s1.latin_word.length :=
                hsuf.length_le
              exact while_gt_fuel hb n s2 (f' + 1) f' (by omega) (by omega) (by omega)
    · rw [while_gt_succ, if_neg hk]
      unfold andThen
      rfl

/-! ## The tiered bodies agree with the single greedy step -/

theorem stepOk_pres_quadFree {t t' : St} (h : StepOk t t') (hq : quadFree t.latin_word) :
    quadFree t'.latin_word := by
  rcases h with rfl | ⟨_, hs⟩
  · exact hq
  · exact quadFree_suffix hq hs

theorem stepOk_pres_len {t t' : St} {m : Nat} (h : StepOk t t')
    (hl : t.latin_word.length ≤ m) : t'.latin_word.length ≤ m := by
  rcases h with rfl | ⟨hlt, _⟩
  · exact hl
  · omega

theorem chainA_eq_sstep {t : St} (h : quadFree t.latin_word) : chainA t = sstep t := by
  unfold sstep
  rw [if_neg (by simp [quad_check_of_quadFree h])]

theorem body1_eq_sstep {t : St} (h : quadFree t.latin_word) : body1 t = sstep t := by
  unfold body1
  rw [if_neg (by simp [quad_check_of_quadFree h])]
  exact chainA_eq_sstep h

theorem chainB_eq_sstep {t : St} (hlen : t.latin_word.length ≤ 2) : chainB t = sstep t := by
  unfold sstep
  rw [if_neg (by rintro ⟨h3, _⟩; omega)]
  unfold chainA
  rw [if_neg (by simp [triple_check_short hlen])]

theorem singles_eq_sstep {t : St} (hlen : t.latin_word.length ≤ 1) :
    singlesChain t = sstep t := by
  unfold sstep
  rw [if_neg (by rintro ⟨h3, _⟩; omega)]
  unfold chainA
  rw [if_neg (by simp [triple_check_short (show t.latin_word.length ≤ 2 by omega)])]
  unfold chainB
  rw [if_neg (by simp [double_check_short hlen])]

theorem while_gt_congr {b1 b2 : St → Except Unit St} {k : Nat} {P : St → Prop}
    (hpt : ∀ t, P t → b1 t = b2 t)
    (hpres : ∀ t t', P t → b1 t = .ok t' → P t') :
    ∀ f s, P s → while_gt b1 k f s = while_gt b2 k f s := by
  intro f
  induction f with
  | zero => intro s _; rfl
  | succ f ih =>
    intro s hP
    by_cases hk : k < s.latin_word.length
    · rw [while_gt_succ, while_gt_succ, if_pos hk, if_pos hk, ← hpt s hP]
      cases hb : b1 s with
      | error e => rw [stepRes_err, stepRes_err]
      | ok s1 =>
        rw [stepRes_ok, stepRes_ok]
        exact ih s1 (hpres s s1 hP hb)
    · rw [while_gt_succ, while_gt_succ, if_neg hk, if_neg hk]

/-- Claim C6 (amended): the four threshold-gated loops of `transliterate`
produce the same result as the single greedy loop that tries the longest
available match length first (4 down to 1, bounded by the remaining
length) for every word on which the tetragraph check never succeeds,
i.e. every word with no occurrence of a tetragraph key in any suffix.
(When a tetragraph does match, the two differ: see the counterexample.) -/
theorem tiered_eq_single_of_quadFree (w : List Char) (hqf : quadFree w) :
    transliterate (w.length + 1) (initW w) = singleRun (w.length + 1) (initW w) := by
  have hq0 : quadFree (initW w).latin_word := hqf
  have e1 : while_gt body1 3 (w.length + 1) (initW w)
      = while_gt sstep 3 (w.length + 1) (initW w) :=
    while_gt_congr (fun t ht => body1_eq_sstep ht)
      (fun t t' ht hb => stepOk_pres_quadFree (body1_ok hb) ht) _ _ hq0
  have e2 : ∀ s : St, quadFree s.latin_word →
      while_gt chainA 2 (w.length + 1) s = while_gt sstep 2 (w.length + 1) s :=
    fun s hs => while_gt_congr (fun t ht => chainA_eq_sstep ht)
      (fun t t' ht hb => stepOk_pres_quadFree (chainA_ok hb) ht) _ s hs
  have e3 : ∀ s : St, s.latin_word.length ≤ 2 →
      while_gt chainB 1 (w.length + 1) s = while_gt sstep 1 (w.length + 1) s :=
    fun s hs => while_gt_congr (fun t ht => chainB_eq_sstep ht)
      (fun t t' ht hb => stepOk_pres_len (chainB_ok hb) ht) _ s hs
  have e4 : ∀ s : St, s.latin_word.length ≤ 1 →
      while_gt singlesChain 0 (w.length + 1) s = while_gt sstep 0 (w.length + 1) s :=
    fun s hs => while_gt_congr (fun t ht => singles_eq_sstep ht)
      (fun t t' ht hb => stepOk_pres_len (singlesChain_ok hb) ht) _ s hs
  have hr2 : ∀ s : St,
      while_gt sstep 3 (w.length + 1) (initW w) = some (.ok s) →
      quadFree s.latin_word :=
    fun s hs => quadFree_suffix hq0 (while_gt_ok_suffix sstep_bodyStep _ _ _ hs)
  have hr3 : ∀ s : St,
      andThen (while_gt sstep 3 (w.length + 1) (initW w))
        (while_gt sstep 2 (w.length + 1)) = some (.ok s) →
      s.latin_word.length ≤ 2 := by
    intro s hs
    obtain ⟨s0, h0, h1⟩ := andThen_ok hs
    exact while_gt_ok_exit _ _ _ h1
  have hr4 : ∀ s : St,
      andThen (andThen (while_gt sstep 3 (w.length + 1) (initW w))
          (while_gt sstep 2 (w.length + 1)))
        (while_gt sstep 1 (w.length + 1)) = some (.ok s) →
      s.latin_word.length ≤ 1 := by
    intro s hs
    obtain ⟨s0, h0, h1⟩ := andThen_ok hs
    exact while_gt_ok_exit _ _ _ h1
  have hn0 : (initW w).latin_word.length ≤ w.length := le_refl _
  have hf0 : (initW w).latin_word.length < w.length + 1 := by
    simp only [initW]
    omega
  unfold transliterate singleRun
  rw [e1]
  rw [andThen_congr (fun s => quadFree s.latin_word) hr2 e2]
  rw [andThen_congr (fun s => s.latin_word.length ≤ 2) hr3 e3]
  rw [andThen_congr (fun s => s.latin_word.length ≤ 1) hr4 e4]
  rw [@while_gt_merge sstep 2 3 sstep_bodyStep (by omega) w.length (initW w)
      (w.length + 1) hn0 hf0]
  rw [@while_gt_merge sstep 1 2 sstep_bodyStep (by omega) w.length (initW w)
      (w.length + 1) hn0 hf0]
  rw [@while_gt_merge sstep 0 1 sstep_bodyStep (by omega) w.length (initW w)
      (w.length + 1) hn0 hf0]

/-- Claim C6, counterexample: on the word that is exactly the tetragraph
key for the two-s diphthong (ssai) the tiered implementation raises an
exception (the cascade after the quad match indexes the now-empty word),
while the single greedy loop returns a value, so the two are not
equivalent for every input word. -/
theorem tiered_ne_single_ssai :
    transliterate 5 (initW ['s', 's', 'a', 'i']) = some (.error ()) ∧
    singleRun 5 (initW ['s', 's', 'a', 'i']) =
      some (.ok ⟨[], ['s', 's', 'a', 'i']⟩) ∧
    transliterate 5 (initW ['s', 's', 'a', 'i']) ≠
      singleRun 5 (initW ['s', 's', 'a', 'i']) := by
  refine ⟨rfl, rfl, ?_⟩
  intro h
  rw [show transliterate 5 (initW ['s', 's', 'a', 'i']) = some (.error ()) from rfl,
    show singleRun 5 (initW ['s', 's', 'a', 'i']) =
      some (.ok ⟨[], ['s', 's', 'a', 'i']⟩) from rfl] at h
  injection h with h2
  exact Except.noConfusion h2

/-- Claim C6, witness for the amended equivalence at the word quet. -/
theorem tiered_eq_single_of_quadFree_witness :
    quadFree ['q', 'u', 'e', 't'] ∧
    transliterate 5 (initW ['q', 'u', 'e', 't']) =
      singleRun 5 (initW ['q', 'u', 'e', 't']) := by
  constructor
  · intro t ht
    revert ht
    revert t
    decide
  · exact tiered_eq_single_of_quadFree ['q', 'u', 'e', 't'] (by
      intro t ht
      revert ht
      revert t
      decide)

/-! ## Progress: a covered head character always fires some rule -/

theorem andThen_okk (s : St) (g : St → Option (Except Unit St)) :
    andThen (some (.ok s)) g = g s := rfl

theorem andThen_errk (e : Unit) (g : St → Option (Except Unit St)) :
    andThen (some (.error e)) g = some (.error e) := rfl

theorem singlesChain_fix {s : St} (h : singlesChain s = .ok s) :
    initial_vowel_check s = .ok false ∧ combined_vowel_check s = .ok false ∧
    consonant_check s = .ok false := by
  unfold singlesChain at h
  rcases orCheck_ok h with ⟨hc1, hs⟩ | ⟨hc1, h⟩
  · exact absurd (independent_vowel_substitute_ok hs).1 (lt_irrefl _)
  rcases orCheck_ok h with ⟨hc2, hs⟩ | ⟨hc2, h⟩
  · exact absurd (initial_h_substitute_ok hs).1 (lt_irrefl _)
  rcases orCheck_ok h with ⟨hc3, hs⟩ | ⟨hc3, h⟩
  · exact absurd (long_vowel_substitute_ok hs).1 (lt_irrefl _)
  rcases orCheck_ok h with ⟨hc4, hs⟩ | ⟨hc4, h⟩
  · exact absurd (independent_vowel_substitute_ok hs).1 (lt_irrefl _)
  rcases orCheck_ok h with ⟨hc5, hs⟩ | ⟨hc5, h⟩
  · exact absurd (combined_vowel_substitute_ok hs).1 (lt_irrefl _)
  rcases orCheck_ok h with ⟨hc6, hs⟩ | ⟨hc6, h⟩
  · exact absurd (consonant_substitute_ok hs).1 (lt_irrefl _)
  exact ⟨hc1, hc5, hc6⟩

theorem singlesChain_progress {s : St} {c : Char} {t : List Char}
    (hl : s.latin_word = c :: t) (hc : coveredChar c = true) :
    (∃ e, singlesChain s = .error e) ∨
    ∃ s', singlesChain s = .ok s' ∧ s'.latin_word.length < s.latin_word.length := by
  cases hres : singlesChain s with
  | error e => exact Or.inl ⟨e, rfl⟩
  | ok s' =>
    rcases singlesChain_ok hres with heq | ⟨hlt, _⟩
    · exfalso
      rw [heq] at hres
      obtain ⟨hv, hcv, hcons⟩ := singlesChain_fix hres
      unfold consonant_check at hcons
      rw [hl, exHead_cons, ebind_okk] at hcons
      injection hcons with hcons
      have hvc : vowels.contains c = true := by
        unfold coveredChar at hc
        rw [hcons] at hc
        simpa using hc
      by_cases hann : s.annatar_word.isEmpty = true
      · unfold initial_vowel_check at hv
        rw [hl, exHead_cons, ebind_okk] at hv
        injection hv with hv
        rw [hvc, hann] at hv
        simp at hv
      · unfold combined_vowel_check at hcv
        rw [if_neg hann, hl, exHead_cons, ebind_okk] at hcv
        injection hcv with hcv
        rw [hvc] at hcv
        exact Bool.noConfusion hcv
    · exact Or.inr ⟨s', rfl, hlt⟩

theorem chainB_progress {s : St} {c : Char} {t : List Char}
    (hl : s.latin_word = c :: t) (hc : coveredChar c = true) :
    (∃ e, chainB s = .error e) ∨
    ∃ s', chainB s = .ok s' ∧ s'.latin_word.length < s.latin_word.length := by
  unfold chainB
  by_cases hd : double_check s
  · rw [if_pos hd]
    cases hres : double_substitute s with
    | error e => exact Or.inl ⟨e, rfl⟩
    | ok s' => exact Or.inr ⟨s', rfl, (double_substitute_ok hres).1⟩
  · rw [if_neg hd]
    exact singlesChain_progress hl hc

theorem chainA_progress {s : St} {c : Char} {t : List Char}
    (hl : s.latin_word = c :: t) (hc : coveredChar c = true) :
    (∃ e, chainA s = .error e) ∨
    ∃ s', chainA s = .ok s' ∧ s'.latin_word.length < s.latin_word.length := by
  unfold chainA
  by_cases ht : triple_check s
  · rw [if_pos ht]
    cases hres : triple_substitute s with
    | error e => exact Or.inl ⟨e, rfl⟩
    | ok s' => exact Or.inr ⟨s', rfl, (triple_substitute_ok hres).1⟩
  · rw [if_neg ht]
    exact chainB_progress hl hc

theorem body1_progress {s : St} {c : Char} {t : List Char}
    (hl : s.latin_word = c :: t) (hc : coveredChar c = true) :
    (∃ e, body1 s = .error e) ∨
    ∃ s', body1 s = .ok s' ∧ s'.latin_word.length < s.latin_word.length := by
  unfold body1
  by_cases hq : quad_check s
  · rw [if_pos hq]
    cases hqs : quad_substitute s with
    | error e => exact Or.inl ⟨e, rfl⟩
    | ok s1 =>
      rw [ebind_okk]
      have h1 := (quad_substitute_ok hqs).1
      cases hres : chainA s1 with
      | error e => exact Or.inl ⟨e, rfl⟩
      | ok s2 =>
        rcases chainA_ok hres with heq | ⟨hlt, _⟩
        · exact Or.inr ⟨s2, rfl, by rw [heq]; exact h1⟩
        · exact Or.inr ⟨s2, rfl, lt_trans hlt h1⟩
  · rw [if_neg hq]
    exact chainA_progress hl hc

theorem while_gt_term {body : St → Except Unit St} {k : Nat}
    (hb : BodyStep body)
    (hprog : ∀ (s : St) (c : Char) (t : List Char), s.latin_word = c :: t →
      coveredChar c = true →
      (∃ e, body s = .error e) ∨
      ∃ s', body s = .ok s' ∧ s'.latin_word.length < s.latin_word.length) :
    ∀ (n : Nat) (s : St) (f : Nat), s.latin_word.length ≤ n →
      s.latin_word.length < f → (∀ c ∈ s.latin_word, coveredChar c = true) →
      while_gt body k f s ≠ none := by
  intro n
  induction n with
  | zero =>
    intro s f hn hf hcov
    obtain ⟨f', rfl⟩ : ∃ f', f = f' + 1 := ⟨f - 1, by omega⟩
    have hk : ¬ k < s.latin_word.length := by omega
    rw [while_gt_succ, if_neg hk]
    simp
  | succ n ih =>
    intro s f hn hf hcov
    obtain ⟨f', rfl⟩ : ∃ f', f = f' + 1 := ⟨f - 1, by omega⟩
    by_cases hk : k < s.latin_word.length
    · rw [while_gt_succ, if_pos hk]
      cases hl : s.latin_word with
      | nil => rw [hl] at hk; simp at hk
      | cons c t =>
        have hcc : coveredChar c = true := by
          apply hcov
          rw [hl]
          exact List.mem_cons_self c t
        rcases hprog s c t hl hcc with ⟨e, he⟩ | ⟨s', hs', hlt⟩
        · rw [he, stepRes_err]
          simp
        · rw [hs', stepRes_ok]
          apply ih s' f'
          · omega
          · omega
          · intro c2 hc2
            apply hcov
            rcases hb s s' hs' with rfl | ⟨_, hsx⟩
            · exact hc2
            · exact hsx.subset hc2
    · rw [while_gt_succ, if_neg hk]
      simp

/-- Claim C1 (amended): for every word all of whose characters have a
single-character rule (the vowel list or the consonant table — which
excludes the plain letters b, d, g, j, q, z), `transliterate` terminates
within word-length iterations per loop: either it raises the
exact-tetragraph exception, or it completes normally with the remaining
input empty, every character having been consumed exactly once.  (A word
with an uncovered character makes the loop run forever, see the
counterexample.) -/
theorem transliterate_covered_total (w : List Char)
    (hcov : ∀ c ∈ w, coveredChar c = true) :
    ∃ r, transliterate (w.length + 1) (initW w) = some r ∧
      ∀ st, r = Except.ok st → st.latin_word = [] := by
  have hc0 : ∀ c ∈ (initW w).latin_word, coveredChar c = true := hcov
  have hl0 : (initW w).latin_word.length < w.length + 1 := by
    simp only [initW]
    omega
  unfold transliterate
  cases h1 : while_gt body1 3 (w.length + 1) (initW w) with
  | none =>
    exact absurd h1 (while_gt_term body1_bodyStep
      (fun s c t hl hc => body1_progress hl hc)
      (initW w).latin_word.length (initW w) (w.length + 1) (le_refl _) hl0 hc0)
  | some r1 =>
    cases r1 with
    | error e =>
      refine ⟨.error e, ?_, fun st hst => Except.noConfusion hst⟩
      rw [andThen_errk, andThen_errk, andThen_errk]
    | ok s1 =>
      have hsuf1 := while_gt_ok_suffix body1_bodyStep _ _ _ h1
      have hcov1 : ∀ c ∈ s1.latin_word, coveredChar c = true :=
        fun c hc => hc0 c (hsuf1.subset hc)
      have hlen1 : s1.latin_word.length < w.length + 1 := by
        have hx := hsuf1.length_le
        omega
      rw [andThen_okk]
      cases h2 : while_gt chainA 2 (w.length + 1) s1 with
      | none =>
        exact absurd h2 (while_gt_term chainA_bodyStep
          (fun s c t hl hc => chainA_progress hl hc)
          s1.latin_word.length s1 (w.length + 1) (le_refl _) hlen1 hcov1)
      | some r2 =>
        cases r2 with
        | error e =>
          refine ⟨.error e, ?_, fun st hst => Except.noConfusion hst⟩
          rw [andThen_errk, andThen_errk]
        | ok s2 =>
          have hsuf2 := while_gt_ok_suffix chainA_bodyStep _ _ _ h2
          have hcov2 : ∀ c ∈ s2.latin_word, coveredChar c = true :=
            fun c hc => hcov1 c (hsuf2.subset hc)
          have hlen2 : s2.latin_word.length < w.length + 1 := by
            have hx := hsuf2.length_le
            omega
          rw [andThen_okk]
          cases h3 : while_gt chainB 1 (w.length + 1) s2 with
          | none =>
            exact absurd h3 (while_gt_term chainB_bodyStep
              (fun s c t hl hc => chainB_progress hl hc)
              s2.latin_word.length s2 (w.length + 1) (le_refl _) hlen2 hcov2)
          | some r3 =>
            cases r3 with
            | error e =>
              refine ⟨.error e, ?_, fun st hst => Except.noConfusion hst⟩
              rw [andThen_errk]
            | ok s3 =>
              have hsuf3 := while_gt_ok_suffix chainB_bodyStep _ _ _ h3
              have hcov3 : ∀ c ∈ s3.latin_word, coveredChar c = true :=
                fun c hc => hcov2 c (hsuf3.subset hc)
              have hlen3 : s3.latin_word.length < w.length + 1 := by
                have hx := hsuf3.length_le
                omega
              rw [andThen_okk]
              cases h4 : while_gt singlesChain 0 (w.length + 1) s3 with
              | none =>
                exact absurd h4 (while_gt_term singlesChain_bodyStep
                  (fun s c t hl hc => singlesChain_progress hl hc)
                  s3.latin_word.length s3 (w.length + 1) (le_refl _) hlen3 hcov3)
              | some r4 =>
                cases r4 with
                | error e =>
                  exact ⟨.error e, rfl, fun st hst => Except.noConfusion hst⟩
                | ok s4 =>
                  refine ⟨.ok s4, rfl, ?_⟩
                  intro st hst
                  injection hst with hst
                  subst hst
                  have hx := while_gt_ok_exit _ _ _ h4
                  exact List.eq_nil_of_length_eq_zero (by omega)

/-- Claim C1, witness: the word ta is covered by the single-character
tables, and its run terminates with the whole word consumed. -/
theorem transliterate_covered_total_witness :
    (∀ c ∈ ['t', 'a'], coveredChar c = true) ∧
    ∃ r, transliterate (['t', 'a'].length + 1) (initW ['t', 'a']) = some r ∧
      ∀ st, r = Except.ok st → st.latin_word = [] :=
  ⟨by decide, transliterate_covered_total ['t', 'a'] (by decide)⟩

/-- Claim C1, counterexample: the letter b is a lowercase Latin letter
with no rule in any table, and on the one-letter word b no loop iteration
ever consumes a character, so `transliterate` never terminates: no amount
of fuel makes the run return. -/
theorem transliterate_b_diverges :
    ¬ ∃ (f : Nat) (r : Except Unit St), transliterate f (initW ['b']) = some r := by
  rintro ⟨f, r, h⟩
  have hstuckb : singlesChain (initW ['b']) = .ok (initW ['b']) := rfl
  have hstuck : ∀ g2, while_gt singlesChain 0 g2 (initW ['b']) = none :=
    while_gt_stuck hstuckb (by decide)
  have hnone : transliterate f (initW ['b']) = none := by
    cases f with
    | zero => rfl
    | succ g =>
      unfold transliterate
      rw [while_gt_succ, if_neg (by decide), andThen_okk,
        while_gt_succ, if_neg (by decide), andThen_okk,
        while_gt_succ, if_neg (by decide), andThen_okk]
      exact hstuck (g + 1)
  rw [hnone] at h
  exact Option.noConfusion h

/-! ## Which rule the cascade dispatches to -/

theorem orCheck_true (a r : Except Unit St) : orCheck (.ok true) a r = a := rfl

theorem orCheck_false (a r : Except Unit St) : orCheck (.ok false) a r = r := rfl

/-- Claim C2 (code evidence): on the word ssai — exactly a tetragraph
key — the first loop consumes the whole word in the quad branch (also
appending the raw word, not the glyph) and the elif cascade of the same
iteration then evaluates `latin_word[0]` on the now-empty string, raising
IndexError: the call does not complete normally. -/
theorem transliterate_ssai_raises :
    transliterate 5 (initW ['s', 's', 'a', 'i']) = some (.error ()) ∧
    body1 (initW ['s', 's', 'a', 'i']) = .error () :=
  ⟨rfl, rfl⟩

/-- Claim C3 (amended), general form over states: when more than two
characters remain, the tetragraph and trigraph checks fail, and the first
two characters are a digraph key, the dispatch emits the mapped glyph and
consumes both characters. -/
theorem firstStep_double (s : St) (g : Glyph)
    (hlen : 2 < s.latin_word.length)
    (hq : quad_check s = false)
    (ht : triple_check s = false)
    (hd : doubles.lookup (s.latin_word.take 2) = some g) :
    firstStep s = .ok ⟨s.latin_word.drop 2, s.annatar_word ++ g⟩ := by
  have hkey : hasKey doubles (s.latin_word.take 2) = true := by
    unfold hasKey
    rw [hd]
    rfl
  have hnw : ¬ s.latin_word.take 2 = ['n', 'w'] := by
    intro hwn
    rw [hwn] at hd
    have hnone : doubles.lookup (['n', 'w'] : List Char) = none := by decide
    rw [hnone] at hd
    exact Option.noConfusion hd
  have hdc : double_check s = true := by
    unfold double_check
    rw [if_neg (show ¬ s.latin_word.length = 2 by omega), if_pos hkey, if_neg hnw]
  unfold firstStep
  by_cases h4 : 3 < s.latin_word.length
  · rw [if_pos h4]
    unfold body1
    rw [if_neg (by simp [hq])]
    unfold chainA
    rw [if_neg (by simp [ht])]
    unfold chainB
    rw [if_pos hdc]
    unfold double_substitute
    rw [if_neg (show ¬ s.latin_word.length = 2 by omega)]
    unfold dget
    rw [hd]
    rfl
  · rw [if_neg h4, if_pos hlen]
    unfold chainA
    rw [if_neg (by simp [ht])]
    unfold chainB
    rw [if_pos hdc]
    unfold double_substitute
    rw [if_neg (show ¬ s.latin_word.length = 2 by omega)]
    unfold dget
    rw [hd]
    rfl

/-- Claim C3 (amended): for a fresh word longer than two characters whose
first two characters form a digraph key, if neither the tetragraph nor
the trigraph rule matches first, the digraph rule wins: its mapped glyph
is emitted and both characters are consumed. -/
theorem double_prefix_wins (w : List Char) (g : Glyph)
    (hlen : 2 < w.length)
    (hq : quad_check (initW w) = false)
    (ht : triple_check (initW w) = false)
    (hd : doubles.lookup (w.take 2) = some g) :
    firstStep (initW w) = .ok ⟨w.drop 2, g⟩ :=
  firstStep_double (initW w) g hlen hq ht hd

/-- Claim C3, witness at the word quen. -/
theorem double_prefix_wins_witness :
    2 < (['q', 'u', 'e', 'n'] : List Char).length ∧
    quad_check (initW ['q', 'u', 'e', 'n']) = false ∧
    triple_check (initW ['q', 'u', 'e', 'n']) = false ∧
    doubles.lookup ((['q', 'u', 'e', 'n'] : List Char).take 2) = some ['z'] ∧
    firstStep (initW ['q', 'u', 'e', 'n']) = .ok ⟨['e', 'n'], ['z']⟩ :=
  ⟨by decide, by decide, by decide, rfl,
    double_prefix_wins ['q', 'u', 'e', 'n'] ['z'] (by decide) (by decide)
      (by decide) rfl⟩

/-- Claim C3, counterexample: a word that is exactly the digraph key qu
has the raw letters appended instead of the mapped glyph z, and a word
whose first two characters form the digraph nt but whose first three form
the trigraph nty is consumed three characters at a time by the trigraph
rule, not two by the digraph rule. -/
theorem double_exact_raw :
    transliterate 5 (initW ['q', 'u']) = some (.ok ⟨[], ['q', 'u']⟩) ∧
    doubles.lookup (['q', 'u'] : List Char) = some ['z'] ∧
    (['q', 'u'] : List Char) ≠ ['z'] ∧
    firstStep (initW ['n', 't', 'y', 'a']) = .ok ⟨['a'], ['4', 'Ì']⟩ ∧
    hasKey doubles (['n', 't'] : List Char) = true ∧
    (['a'] : List Char) ≠ ['y', 'a'] :=
  ⟨rfl, rfl, by decide, rfl, rfl, by decide⟩

/-- Claim C4 (code evidence): the start-of-word carve-out for the
nasalized-w digraph is dead code — it compares the prefix against the two
plain letters n, w, which are not a doubles key — so mid-word the digraph
still fires: in the word a-ñ-w-a the digraph glyph b is emitted after the
initial vowel, instead of the single-character consonant glyphs. -/
theorem nw_carveout_dead :
    transliterate 9 (initW ['a', 'ñ', 'w', 'a']) =
      some (.ok ⟨[], [bq, 'C', 'b', 'C']⟩) ∧
    doubles.lookup (['ñ', 'w'] : List Char) = some ['b'] ∧
    doubles.lookup (['n', 'w'] : List Char) = none ∧
    double_check ⟨['ñ', 'w', 'a'], [bq, 'C']⟩ = true :=
  ⟨rfl, rfl, by decide, rfl⟩

/-- Claim C5 (amended): with a nonempty accumulator and a vowel at the
head of the remaining input — one that is not an acute long vowel, which
the higher-priority long-vowel rule would intercept — the cascade emits
an independent vowel exactly when the last CHARACTER of the accumulator
is one of the combined-vowel characters C F G H J, and a combined vowel
otherwise.  Long-vowel glyphs also end in such a character, so a vowel
following a long-vowel glyph is emitted independent as well. -/
theorem preceding_vowel_char_rule (s : St) (c g : Char)
    (hl : s.latin_word.head? = some c)
    (hv : vowels.contains c = true)
    (hnl : hasKey long_vowels c = false)
    (hg : s.annatar_word.getLast? = some g) :
    singlesChain s =
      (if (combined_vowels.map Prod.snd).contains [g] then
        independent_vowel_substitute s
      else combined_vowel_substitute s) := by
  obtain ⟨t, hlt⟩ : ∃ t, s.latin_word = c :: t := by
    cases hll : s.latin_word with
    | nil => rw [hll] at hl; exact Option.noConfusion hl
    | cons a t =>
      rw [hll] at hl
      injection hl with hl
      exact ⟨t, by rw [hl]⟩
  have hann : s.annatar_word.isEmpty = false := by
    cases hla : s.annatar_word with
    | nil => rw [hla] at hg; exact Option.noConfusion hg
    | cons a as => rfl
  have h1 : initial_vowel_check s = .ok false := by
    unfold initial_vowel_check
    rw [hlt, exHead_cons, ebind_okk, hann]
    simp
  have h2 : initial_h_check s = .ok false := by
    unfold initial_h_check
    rw [hlt, exHead_cons, ebind_okk, hann]
    simp
  have h3 : long_vowel_check s = .ok false := by
    unfold long_vowel_check
    rw [hlt, exHead_cons, ebind_okk, hnl]
  have h4 : preceding_vowel_check s =
      .ok ((combined_vowels.map Prod.snd).contains [g]) := by
    unfold preceding_vowel_check
    rw [if_neg (by simp [hann]), hlt, exHead_cons, ebind_okk, if_pos hv]
    unfold exLast
    rw [hg]
    rfl
  unfold singlesChain
  rw [h1, orCheck_false, h2, orCheck_false, h3, orCheck_false, h4]
  by_cases hb : (combined_vowels.map Prod.snd).contains [g] = true
  · rw [hb, orCheck_true, if_pos rfl]
  · rw [Bool.not_eq_true] at hb
    rw [hb, orCheck_false, if_neg (by simp [hb])]
    have h5 : combined_vowel_check s = .ok true := by
      unfold combined_vowel_check
      rw [if_neg (by simp [hann]), hlt, exHead_cons, ebind_okk, hv]
    rw [h5, orCheck_true]

/-- Claim C5, witness: the state reached inside tái — remaining input i,
accumulator 1~C — dispatches on the last character C, which is a
combined-vowel character, so the i becomes an independent vowel. -/
theorem preceding_vowel_char_rule_witness :
    singlesChain ⟨['i'], ['1', '~', 'C']⟩ =
      (if (combined_vowels.map Prod.snd).contains ['C'] then
        independent_vowel_substitute ⟨['i'], ['1', '~', 'C']⟩
      else combined_vowel_substitute ⟨['i'], ['1', '~', 'C']⟩) :=
  preceding_vowel_char_rule ⟨['i'], ['1', '~', 'C']⟩ 'i' 'C' rfl (by decide)
    (by decide) rfl

/-- Claim C5, counterexample: in tái the á emits the long-vowel glyph ~C,
whose last character C is a combined-vowel character, so the following i
is emitted as the INDEPENDENT vowel glyph, not as the combined glyph G
the claim predicts. -/
theorem tai_independent :
    transliterate 9 (initW ['t', 'á', 'i']) =
      some (.ok ⟨[], ['1', '~', 'C', bq, 'G']⟩) ∧
    long_vowels.lookup 'á' = some ['~', 'C'] ∧
    independent_vowels.lookup 'i' = some [bq, 'G'] ∧
    combined_vowels.lookup 'i' = some ['G'] ∧
    ['1', '~', 'C', bq, 'G'] ≠ ['1', '~', 'C', 'G'] :=
  ⟨rfl, rfl, rfl, rfl, by decide⟩

theorem ifOk (b : Bool) (x y : St) :
    ∃ s', (if b = true then (Except.ok x : Except Unit St) else Except.ok y) = .ok s' := by
  cases b with
  | true => exact ⟨x, rfl⟩
  | false => exact ⟨y, rfl⟩

/-- Claim C9: when the head of the remaining input is the letter r, the
single-character cascade never raises: with an empty accumulator the
higher-priority initial-consonant rule captures the r (r is a key of
`initial_consonant`), and otherwise the consonant rule runs with a
nonempty accumulator, so `annatar_word[-1]` inside `consonant_substitute`
never indexes an empty string. -/
theorem r_consonant_safe (s : St) (hl : s.latin_word.head? = some 'r') :
    (∃ s', singlesChain s = .ok s') ∧
    (s.annatar_word = [] → singlesChain s = initial_h_substitute s) := by
  obtain ⟨t, hlt⟩ : ∃ t, s.latin_word = 'r' :: t := by
    cases hll : s.latin_word with
    | nil => rw [hll] at hl; exact Option.noConfusion hl
    | cons a t =>
      rw [hll] at hl
      injection hl with hl
      exact ⟨t, by rw [hl]⟩
  have h1 : initial_vowel_check s = .ok false := by
    unfold initial_vowel_check
    rw [hlt, exHead_cons, ebind_okk]
    rfl
  cases hann : s.annatar_word with
  | nil =>
    have h2 : initial_h_check s = .ok true := by
      unfold initial_h_check
      rw [hlt, exHead_cons, ebind_okk, hann]
      rfl
    have hchain : singlesChain s = initial_h_substitute s := by
      unfold singlesChain
      rw [h1, orCheck_false, h2, orCheck_true]
    refine ⟨?_, fun _ => hchain⟩
    rw [hchain]
    unfold initial_h_substitute
    rw [hlt, exHead_cons, ebind_okk]
    exact ⟨_, rfl⟩
  | cons a as =>
    have h2 : initial_h_check s = .ok false := by
      unfold initial_h_check
      rw [hlt, exHead_cons, ebind_okk, hann]
      rfl
    have h3 : long_vowel_check s = .ok false := by
      unfold long_vowel_check
      rw [hlt, exHead_cons, ebind_okk]
      rfl
    have h4 : preceding_vowel_check s = .ok false := by
      unfold preceding_vowel_check
      rw [hann, if_neg (by simp), hlt, exHead_cons, ebind_okk,
        if_neg (by decide : ¬ vowels.contains 'r' = true)]
    have h5 : combined_vowel_check s = .ok false := by
      unfold combined_vowel_check
      rw [hann, if_neg (by simp), hlt, exHead_cons, ebind_okk]
      rfl
    have h6 : consonant_check s = .ok true := by
      unfold consonant_check
      rw [hlt, exHead_cons, ebind_okk]
      rfl
    have hchain : singlesChain s = consonant_substitute s := by
      unfold singlesChain
      rw [h1, orCheck_false, h2, orCheck_false, h3, orCheck_false, h4,
        orCheck_false, h5, orCheck_false, h6, orCheck_true]
    refine ⟨?_, fun hcontra => List.noConfusion hcontra⟩
    rw [hchain]
    unfold consonant_substitute
    rw [hlt, exHead_cons, ebind_okk, if_pos rfl, hann]
    cases t with
    | nil =>
      rw [if_neg (by simp)]
      exact ⟨_, rfl⟩
    | cons v' t' =>
      rw [if_pos (by simp)]
      obtain ⟨gl, hgl⟩ : ∃ gl, (a :: as).getLast? = some gl := by
        cases hx : (a :: as).getLast? with
        | some gl => exact ⟨gl, rfl⟩
        | none => exact absurd (List.getLast?_eq_none_iff.mp hx) (by simp)
      unfold exLast
      rw [hgl]
      exact ifOk (tengwar_vowels.contains gl && vowels.contains v')
        ⟨List.drop 1 ('r' :: v' :: t'), (a :: as) ++ ['7']⟩
        ⟨List.drop 1 ('r' :: v' :: t'), (a :: as) ++ ['6']⟩

/-- Claim C9, witness at the fresh word ra. -/
theorem r_consonant_safe_witness :
    (∃ s', singlesChain ⟨['r', 'a'], []⟩ = .ok s') ∧
    ((⟨['r', 'a'], []⟩ : St).annatar_word = [] →
      singlesChain ⟨['r', 'a'], []⟩ = initial_h_substitute ⟨['r', 'a'], []⟩) :=
  r_consonant_safe ⟨['r', 'a'], []⟩ rfl

/-! ## Tokenizer and sentence-level facts -/

theorem sgo_cons_false (c : Char) (rest cur : List Char) :
    sgo (c :: rest) cur false =
      if wordChar c then sgo rest (c :: cur) false
      else cur.reverse :: sgo rest [] true := rfl

theorem sgo_cons_true (c : Char) (rest cur : List Char) :
    sgo (c :: rest) cur true =
      if wordChar c then sgo rest [c] false else sgo rest cur true := rfl

theorem sgo_nil_false (cur : List Char) : sgo [] cur false = [cur.reverse] := rfl

theorem sgo_nil_true (cur : List Char) : sgo [] cur true = [[]] := rfl

theorem sgo_ne_nil : ∀ (l cur : List Char) (m : Bool), sgo l cur m ≠ [] := by
  intro l
  induction l with
  | nil =>
    intro cur m
    cases m with
    | false => rw [sgo_nil_false]; exact List.cons_ne_nil _ _
    | true => rw [sgo_nil_true]; exact List.cons_ne_nil _ _
  | cons c rest ih =>
    intro cur m
    cases m with
    | false =>
      rw [sgo_cons_false]
      by_cases hw : wordChar c = true
      · rw [if_pos hw]; exact ih (c :: cur) false
      · rw [if_neg hw]; exact List.cons_ne_nil _ _
    | true =>
      rw [sgo_cons_true]
      by_cases hw : wordChar c = true
      · rw [if_pos hw]; exact ih [c] false
      · rw [if_neg hw]; exact ih cur true

theorem getLast?_cons_of_some {α : Type} (a : α) {l : List α} {x : α}
    (h : l.getLast? = some x) : (a :: l).getLast? = some x := by
  cases l with
  | nil => exact Option.noConfusion h
  | cons b t => rw [List.getLast?_cons_cons]; exact h

theorem getLast?_append_some {α : Type} {l2 : List α} {x : α}
    (h : l2.getLast? = some x) : ∀ l1 : List α, (l1 ++ l2).getLast? = some x := by
  intro l1
  induction l1 with
  | nil => exact h
  | cons a t ih => exact getLast?_cons_of_some a ih

theorem splitW_sep_head {c : Char} (rest : List Char) (h : wordChar c = false) :
    splitW (c :: rest) = [] :: sgo rest [] true := by
  unfold splitW
  rw [sgo_cons_false, if_neg (by simp [h])]
  rfl

theorem sgo_last_sep : ∀ l : List Char, l ≠ [] →
    (∀ cl, l.getLast? = some cl → wordChar cl = false) →
    ∀ (cur : List Char) (m : Bool), (sgo l cur m).getLast? = some [] := by
  intro l
  induction l with
  | nil => intro h; exact absurd rfl h
  | cons c rest ih =>
    intro _ hlast cur m
    cases hrest : rest with
    | nil =>
      subst hrest
      have hc : wordChar c = false := hlast c rfl
      cases m with
      | false => rw [sgo_cons_false, if_neg (by simp [hc]), sgo_nil_true]; rfl
      | true => rw [sgo_cons_true, if_neg (by simp [hc]), sgo_nil_true]; rfl
    | cons c2 rest2 =>
      subst hrest
      have hlast' : ∀ cl, (c2 :: rest2).getLast? = some cl → wordChar cl = false := by
        intro cl hcl
        apply hlast
        rw [List.getLast?_cons_cons]
        exact hcl
      cases m with
      | false =>
        rw [sgo_cons_false]
        by_cases hw : wordChar c = true
        · rw [if_pos hw]
          exact ih (List.cons_ne_nil _ _) hlast' (c :: cur) false
        · rw [if_neg hw]
          exact getLast?_cons_of_some cur.reverse
            (ih (List.cons_ne_nil _ _) hlast' [] true)
      | true =>
        rw [sgo_cons_true]
        by_cases hw : wordChar c = true
        · rw [if_pos hw]
          exact ih (List.cons_ne_nil _ _) hlast' [c] false
        · rw [if_neg hw]
          exact ih (List.cons_ne_nil _ _) hlast' cur true

theorem sgo_len2 : ∀ l : List Char, l ≠ [] →
    (∀ cl, l.getLast? = some cl → wordChar cl = false) →
    ∀ cur : List Char, 2 ≤ (sgo l cur false).length := by
  intro l
  induction l with
  | nil => intro h; exact absurd rfl h
  | cons c rest ih =>
    intro _ hlast cur
    cases hrest : rest with
    | nil =>
      subst hrest
      have hc : wordChar c = false := hlast c rfl
      rw [sgo_cons_false, if_neg (by simp [hc]), sgo_nil_true]
      rfl
    | cons c2 rest2 =>
      subst hrest
      have hlast' : ∀ cl, (c2 :: rest2).getLast? = some cl → wordChar cl = false := by
        intro cl hcl
        apply hlast
        rw [List.getLast?_cons_cons]
        exact hcl
      rw [sgo_cons_false]
      by_cases hw : wordChar c = true
      · rw [if_pos hw]
        exact ih (List.cons_ne_nil _ _) hlast' (c :: cur)
      · rw [if_neg hw]
        have h1 : 1 ≤ (sgo (c2 :: rest2) [] true).length :=
          List.length_pos.mpr (sgo_ne_nil (c2 :: rest2) [] true)
        simp only [List.length_cons]
        omega

theorem pyLower_nonword {c : Char} (h : wordChar c = false) : pyLower c = c := by
  unfold pyLower
  have hAZ : ('A' ≤ c && c ≤ 'Z') = false := by
    cases hx : ('A' ≤ c && c ≤ 'Z') with
    | false => rfl
    | true =>
      exfalso
      unfold wordChar at h
      rw [hx] at h
      simp at h
  rw [if_neg (by simp [hAZ])]
  cases hl : upperMap.lookup c with
  | none => rfl
  | some l =>
    exfalso
    have hmem := lookup_mem c upperMap (by rw [hl]; rfl)
    have hall : ∀ x ∈ upperMap.map Prod.fst, wordChar x = true := by decide
    rw [hall c hmem] at h
    exact Bool.noConfusion h

theorem transliterate_zero (s : St) : transliterate 0 s = none := rfl

theorem transliterate_nil (f : Nat) :
    transliterate (f + 1) (initW []) = some (.ok (initW [])) := rfl

theorem transWords_cons {f : Nat} {w : List Char} {ws : List (List Char)}
    {outs : List (List Char)} (h : transWords f (w :: ws) = some (.ok outs)) :
    ∃ st os, transliterate f (initW w) = some (.ok st) ∧
      outs = st.annatar_word :: os ∧ transWords f ws = some (.ok os) := by
  unfold transWords at h
  cases ht : transliterate f (initW w) with
  | none => rw [ht, obind_none] at h; exact Option.noConfusion h
  | some r =>
    cases r with
    | error e => rw [ht, obind_err] at h; simp at h
    | ok st =>
      rw [ht, obind_okk] at h
      cases hw : transWords f ws with
      | none => rw [hw, obind_none] at h; exact Option.noConfusion h
      | some r2 =>
        cases r2 with
        | error e => rw [hw, obind_err] at h; simp at h
        | ok os =>
          rw [hw, obind_okk] at h
          injection h with h2
          injection h2 with h3
          exact ⟨st, os, rfl, h3.symm, rfl⟩

theorem transWords_len (f : Nat) :
    ∀ (ws outs : List (List Char)), transWords f ws = some (.ok outs) →
      outs.length = ws.length := by
  intro ws
  induction ws with
  | nil =>
    intro outs h
    injection h with h2
    injection h2 with h3
    rw [← h3]
  | cons w ws ih =>
    intro outs h
    obtain ⟨st, os, _, h2, h3⟩ := transWords_cons h
    rw [h2, List.length_cons, List.length_cons, ih os h3]

theorem transWords_out_empty {f : Nat} {ws outs : List (List Char)}
    (h : transWords f ([] :: ws) = some (.ok outs)) :
    ∃ os, outs = [] :: os ∧ transWords f ws = some (.ok os) := by
  obtain ⟨st, os, h1, h2, h3⟩ := transWords_cons h
  cases f with
  | zero =>
    rw [transliterate_zero] at h1
    exact Option.noConfusion h1
  | succ g =>
    rw [transliterate_nil g] at h1
    injection h1 with h1
    injection h1 with h1
    refine ⟨os, ?_, h3⟩
    rw [h2, ← h1]
    rfl

theorem transWords_last (f : Nat) :
    ∀ (ws outs : List (List Char)), transWords f ws = some (.ok outs) →
      ws.getLast? = some [] → outs.getLast? = some [] := by
  intro ws
  induction ws with
  | nil => intro outs _ hlast; exact Option.noConfusion hlast
  | cons w ws ih =>
    intro outs h hlast
    obtain ⟨st, os, h1, h2, h3⟩ := transWords_cons h
    cases hws : ws with
    | nil =>
      subst hws
      have hw : w = [] := by simpa using hlast
      subst hw
      cases f with
      | zero =>
        rw [transliterate_zero] at h1
        exact Option.noConfusion h1
      | succ g =>
        rw [transliterate_nil g] at h1
        injection h1 with h1
        injection h1 with h1
        have hos : os = [] := by
          unfold transWords at h3
          injection h3 with h4
          injection h4 with h5
          rw [← h5]
        rw [h2, ← h1, hos]
        rfl
    | cons w2 ws2 =>
      subst hws
      have hlast' : (w2 :: ws2).getLast? = some [] := by
        rw [List.getLast?_cons_cons] at hlast
        exact hlast
      rw [h2]
      exact getLast?_cons_of_some st.annatar_word (ih os h3 hlast')

theorem intercalate_cons_cons (x y : List Char) (zs : List (List Char)) :
    List.intercalate [' '] (x :: y :: zs) =
      x ++ ' ' :: List.intercalate [' '] (y :: zs) := by
  unfold List.intercalate
  rw [List.intersperse_cons_cons]
  simp [List.flatten_cons]

theorem intercalate_head (b : List Char) (rest : List (List Char)) :
    (List.intercalate [' '] ([] :: b :: rest)).head? = some ' ' := by
  rw [intercalate_cons_cons]
  rfl

theorem intercalate_last : ∀ outs : List (List Char), outs.getLast? = some [] →
    2 ≤ outs.length → (List.intercalate [' '] outs).getLast? = some ' ' := by
  intro outs
  induction outs with
  | nil => intro h _; exact Option.noConfusion h
  | cons a rest ih =>
    intro hlast hlen
    cases rest with
    | nil => simp at hlen
    | cons b rest2 =>
      cases hr2 : rest2 with
      | nil =>
        subst hr2
        have hb : b = [] := by simpa using hlast
        subst hb
        rw [intercalate_cons_cons]
        have hx : (' ' :: List.intercalate [' '] [([] : List Char)]).getLast? = some ' ' := rfl
        exact getLast?_append_some hx a
      | cons c3 rest3 =>
        subst hr2
        have hlast' : (b :: c3 :: rest3).getLast? = some [] := by
          rw [List.getLast?_cons_cons] at hlast
          exact hlast
        have hih := ih hlast' (by simp)
        rw [intercalate_cons_cons]
        exact getLast?_append_some (getLast?_cons_of_some ' ' hih) a

/-- Claim C7 (amended): transcribing the empty sentence gives the empty
string; a sentence of only separator characters tokenizes into one empty
word on each side of the separator run, so joining with a single space
returns the one-character string consisting of a space, not the empty
string. -/
theorem transcribe_empty_and_spaces :
    transcribe_sentence 1 [] = some (.ok []) ∧
    transcribe_sentence 1 [' ', ' ', ' '] = some (.ok [' ']) :=
  ⟨rfl, rfl⟩

/-- Claim C7, counterexample: on the three-space sentence the result is a
single space, not the empty string the claim predicts. -/
theorem transcribe_spaces_not_empty :
    transcribe_sentence 1 [' ', ' ', ' '] = some (.ok [' ']) ∧
    ([' '] : List Char) ≠ [] :=
  ⟨rfl, by decide⟩

/-- Claim C8: transliteration is deterministic and per-word independent:
inside the sentence pipeline the output for the first word of any word
list is exactly the output of a standalone `transliterate` run on a fresh
`LatinWord` state for that word alone, and the remaining words are
processed independently of it — no state is shared across words.  In
this embedding the function is pure, so two runs on the same word are
definitionally the same value. -/
theorem transWords_head_independent (f : Nat) (w : List Char)
    (ws : List (List Char)) (outs : List (List Char))
    (h : transWords f (w :: ws) = some (.ok outs)) :
    ∃ st os, transliterate f (initW w) = some (.ok st) ∧
      outs = st.annatar_word :: os ∧ transWords f ws = some (.ok os) :=
  transWords_cons h

/-- Claim C8, witness at the one-word list ta. -/
theorem transWords_head_independent_witness :
    ∃ st os, transliterate 3 (initW ['t', 'a']) = some (.ok st) ∧
      [['1', 'C']] = st.annatar_word :: os ∧ transWords 3 [] = some (.ok os) :=
  transWords_head_independent 3 ['t', 'a'] [] [['1', 'C']] rfl

/-- Claim C10: when a sentence begins (or ends) with a non-word
character, the tokenizer produces an empty first (or last) token, the
empty token transliterates to the empty string, and hence every
successfully produced output of `transcribe_sentence` begins (or ends)
with a space character rather than stripping the separator. -/
theorem transcribe_boundary_space (f : Nat) (s out : List Char)
    (h : transcribe_sentence f s = some (.ok out)) :
    (∀ c, s.head? = some c → wordChar c = false → out.head? = some ' ') ∧
    (∀ c, s.getLast? = some c → wordChar c = false → out.getLast? = some ' ') := by
  unfold transcribe_sentence at h
  cases htw : transWords f (splitW (s.map pyLower)) with
  | none => rw [htw, obind_none] at h; exact Option.noConfusion h
  | some r =>
    cases r with
    | error e => rw [htw, obind_err] at h; simp at h
    | ok outs =>
      rw [htw, obind_okk] at h
      injection h with h2
      injection h2 with h3
      constructor
      · intro c hc hwc
        obtain ⟨t, rfl⟩ : ∃ t, s = c :: t := by
          cases s with
          | nil => exact Option.noConfusion hc
          | cons a t =>
            injection hc with hc
            exact ⟨t, by rw [hc]⟩
        have hmap : (c :: t).map pyLower = c :: t.map pyLower := by
          rw [List.map_cons, pyLower_nonword hwc]
        rw [hmap, splitW_sep_head (t.map pyLower) hwc] at htw
        obtain ⟨os, houts, hrest⟩ := transWords_out_empty htw
        have hoslen : os.length = (sgo (t.map pyLower) [] true).length :=
          transWords_len f _ os hrest
        cases hos : os with
        | nil =>
          rw [hos] at hoslen
          exact absurd (List.length_eq_zero.mp hoslen.symm)
            (sgo_ne_nil (t.map pyLower) [] true)
        | cons o1 os2 =>
          rw [← h3, houts, hos]
          exact intercalate_head o1 os2
      · intro c hc hwc
        have hs_ne : s ≠ [] := by
          intro hx
          rw [hx] at hc
          exact Option.noConfusion hc
        have hmaplast : (s.map pyLower).getLast? = some c := by
          rw [List.getLast?_map, hc]
          simp [pyLower_nonword hwc]
        have hmap_ne : s.map pyLower ≠ [] := by
          intro hx
          rw [List.map_eq_nil_iff] at hx
          exact hs_ne hx
        have hlastsep : ∀ cl, (s.map pyLower).getLast? = some cl →
            wordChar cl = false := by
          intro cl hcl
          rw [hmaplast] at hcl
          injection hcl with hcl
          rw [hcl] at hwc
          exact hwc
        have hsplast : (splitW (s.map pyLower)).getLast? = some [] :=
          sgo_last_sep (s.map pyLower) hmap_ne hlastsep [] false
        have hsplen : 2 ≤ (splitW (s.map pyLower)).length :=
          sgo_len2 (s.map pyLower) hmap_ne hlastsep []
        have houtlast : outs.getLast? = some [] :=
          transWords_last f _ outs htw hsplast
        have houtlen : outs.length = (splitW (s.map pyLower)).length :=
          transWords_len f _ outs htw
        rw [← h3]
        exact intercalate_last outs houtlast (by omega)

/-- Claim C10, witness: the sentence consisting of a space, the word ta,
and a trailing dot transcribes to a string that both begins and ends with
a space. -/
theorem transcribe_boundary_space_witness :
    ([' ', 't', 'a', '.'] : List Char).head? = some ' ' ∧
    ([' ', 't', 'a', '.'] : List Char).getLast? = some '.' ∧
    ([' ', '1', 'C', ' '] : List Char).head? = some ' ' ∧
    ([' ', '1', 'C', ' '] : List Char).getLast? = some ' ' := by
  have h := transcribe_boundary_space 4 [' ', 't', 'a', '.'] [' ', '1', 'C', ' '] rfl
  exact ⟨rfl, rfl, h.1 ' ' rfl (by decide), h.2 '.' rfl (by decide)⟩
